import Mathlib

/-!
Verification development for the message-preprocessing script
`process_messages.py`.

The script's core pipeline is embedded shallowly over `List Char`:
regex substitutions become explicit character-list scanners with the same
leftmost-match semantics, Python `datetime` values become a six-field
structure of naturals, floats become exact rationals, and the dict rows
appended by `extract_messages` become a `Message` structure.  Python's
Unicode-aware character classes (`\w`, `\S`, `str.lower`, `str.strip`)
are modelled by their ASCII behaviour, which is the fragment exercised by
the fixed ASCII keyword lists and patterns of the script.
-/

set_option maxRecDepth 40000
set_option maxHeartbeats 1600000

namespace TgNews

/-- Characters removed by `remove_emojis`: the union of the code-point
ranges enumerated in the character class of `emoji_pattern`.  Substituting
a `[ranges]+` match by the empty string deletes exactly the characters
lying in the ranges. -/
def isEmojiChar (c : Char) : Bool :=
  let n := c.toNat
  (0x1F600 ≤ n && n ≤ 0x1F64F) ||
  (0x1F300 ≤ n && n ≤ 0x1F5FF) ||
  (0x1F680 ≤ n && n ≤ 0x1F6FF) ||
  (0x1F1E0 ≤ n && n ≤ 0x1F1FF) ||
  (0x2702 ≤ n && n ≤ 0x27B0) ||
  (0x24C2 ≤ n && n ≤ 0x1F251) ||
  (0x1F900 ≤ n && n ≤ 0x1F9FF) ||
  (0x1FA00 ≤ n && n ≤ 0x1FAFF)

/-- `remove_emojis` from the script: delete every character inside the
enumerated emoji ranges. -/
def remove_emojis (l : List Char) : List Char :=
  l.filter (fun c => !isEmojiChar c)

/-- ASCII fragment of the regex class `\s` (whitespace). -/
def isPySpace (c : Char) : Bool :=
  c = ' ' || c = '\t' || c = '\n' || c = '\x0b' || c = '\x0c' || c = '\r'

/-- ASCII fragment of the regex class `\w` (word characters). -/
def isWordChar (c : Char) : Bool :=
  c.isAlphanum || c = '_'

/-- Python `str.strip()`: drop whitespace from both ends. -/
def pyStrip (l : List Char) : List Char :=
  ((l.dropWhile isPySpace).reverse.dropWhile isPySpace).reverse

/-- Substitution `re.sub(r'@\w+', '', text)`: at each position, a literal
`@` followed by at least one word character deletes the `@` and the
maximal word-character run; scanning resumes after the match.  The fuel
argument bounds the recursion; with fuel at least the input length the
scan is complete, and on exhaustion the remaining input is returned
unchanged. -/
def subMentionF : Nat → List Char → List Char
  | 0, l => l
  | _ + 1, [] => []
  | fuel + 1, c :: l =>
    if c = '@' ∧ 1 ≤ (l.takeWhile isWordChar).length then
      subMentionF fuel (l.dropWhile isWordChar)
    else
      c :: subMentionF fuel l

/-- Lazy scan for the second half `.*?\)` of the markdown-link pattern:
find the first `)` with no intervening newline. -/
def mdInner : List Char → Option (List Char)
  | [] => none
  | c :: l => if c = ')' then some l else if c = '\n' then none else mdInner l

/-- Lazy scan for `.*?\]\(.*?\)` after an opening `[`: the non-greedy
engine tries the shortest non-newline run before each `](`, backtracking
past a `](` whose inner scan finds no `)`. -/
def mdAfterF : Nat → List Char → Option (List Char)
  | 0, _ => none
  | _ + 1, [] => none
  | fuel + 1, c :: l =>
    if c = ']' ∧ l.take 1 = ['('] then
      match mdInner (l.drop 1) with
      | some t => some t
      | none => mdAfterF fuel l
    else if c = '\n' then none
    else mdAfterF fuel l

/-- Substitution `re.sub(r'\[.*?\]\(.*?\)', '', text)` (markdown links). -/
def subMdF : Nat → List Char → List Char
  | 0, l => l
  | _ + 1, [] => []
  | fuel + 1, c :: l =>
    if c = '[' then
      match mdAfterF (l.length + 1) l with
      | some t => subMdF fuel t
      | none => c :: subMdF fuel l
    else c :: subMdF fuel l

/-- Match `://\S+` and return the residue after the greedy `\S+` run. -/
def urlTail (r : List Char) : Option (List Char) :=
  match r with
  | ':' :: '/' :: '/' :: r2 =>
    match r2 with
    | [] => none
    | c :: _ => if isPySpace c then none else some (r2.dropWhile (fun d => !isPySpace d))
  | _ => none

/-- Match `https?://\S+` anchored at the start of `l` (the optional `s`
is tried greedily first, as the backtracking engine does). -/
def urlMatchAt (l : List Char) : Option (List Char) :=
  match l with
  | 'h' :: 't' :: 't' :: 'p' :: rest =>
    (match rest with
     | 's' :: r =>
       (match urlTail r with
        | some t => some t
        | none => urlTail rest)
     | _ => urlTail rest)
  | _ => none

/-- Substitution `re.sub(r'https?://\S+', '', text)` (bare URLs). -/
def subUrlF : Nat → List Char → List Char
  | 0, l => l
  | _ + 1, [] => []
  | fuel + 1, c :: l =>
    match urlMatchAt (c :: l) with
    | some t => subUrlF fuel t
    | none => c :: subUrlF fuel l

/-- Match `t\.me/\S+` anchored at the start of `l`. -/
def tmeMatchAt (l : List Char) : Option (List Char) :=
  match l with
  | 't' :: '.' :: 'm' :: 'e' :: '/' :: r =>
    (match r with
     | [] => none
     | c :: _ => if isPySpace c then none else some (r.dropWhile (fun d => !isPySpace d)))
  | _ => none

/-- Substitution `re.sub(r't\.me/\S+', '', text)` (Telegram links). -/
def subTmeF : Nat → List Char → List Char
  | 0, l => l
  | _ + 1, [] => []
  | fuel + 1, c :: l =>
    match tmeMatchAt (c :: l) with
    | some t => subTmeF fuel t
    | none => c :: subTmeF fuel l

/-- Substitution deleting every maximal run of three or more copies of
`ch`; used for `re.sub(r'-\x7b3,\x7d', '', text)` and the same pattern
with `=`. -/
def subRun3F (ch : Char) : Nat → List Char → List Char
  | 0, l => l
  | _ + 1, [] => []
  | fuel + 1, c :: l =>
    if c = ch ∧ 2 ≤ (l.takeWhile (· = ch)).length then
      subRun3F ch fuel (l.dropWhile (· = ch))
    else c :: subRun3F ch fuel l

/-- Substitution `re.sub(r'\n\x7b3,\x7d', '\n\n', text)`: collapse each
maximal run of three or more newlines to exactly two. -/
def subNlF : Nat → List Char → List Char
  | 0, l => l
  | _ + 1, [] => []
  | fuel + 1, c :: l =>
    if c = '\n' ∧ 2 ≤ (l.takeWhile (· = '\n')).length then
      '\n' :: '\n' :: subNlF fuel (l.dropWhile (· = '\n'))
    else c :: subNlF fuel l

/-- Substitution `re.sub(r' \x7b2,\x7d', ' ', text)`: collapse each
maximal run of two or more spaces to one. -/
def subSpaceF : Nat → List Char → List Char
  | 0, l => l
  | _ + 1, [] => []
  | fuel + 1, c :: l =>
    if c = ' ' ∧ 1 ≤ (l.takeWhile (· = ' ')).length then
      ' ' :: subSpaceF fuel (l.dropWhile (· = ' '))
    else c :: subSpaceF fuel l

/-- `clean_text` from the script: the nine noise-stripping passes in
source order, ending with `str.strip()`. -/
def clean_text (l : List Char) : List Char :=
  let t1 := remove_emojis l
  let t2 := subMentionF t1.length t1
  let t3 := subMdF t2.length t2
  let t4 := subUrlF t3.length t3
  let t5 := subTmeF t4.length t4
  let t6 := subRun3F '-' t5.length t5
  let t7 := subRun3F '=' t6.length t6
  let t8 := subNlF t7.length t7
  let t9 := subSpaceF t8.length t8
  pyStrip t9

/-- Decide whether `needle` is a prefix of `hay`. -/
def startsL : List Char → List Char → Bool
  | [], _ => true
  | _ :: _, [] => false
  | p :: ps, c :: cs => p = c && startsL ps cs

/-- Decide whether `needle` occurs as a contiguous substring of `hay`
(Python's `needle in hay` on strings). -/
def containsSub : List Char → List Char → Bool
  | needle, [] => startsL needle []
  | needle, c :: l => startsL needle (c :: l) || containsSub needle l

/-- The fixed `excluded_terms` list of `contains_excluded_content`. -/
def excluded_terms : List (List Char) :=
  ["israel", "israeli", "idf", "gaza", "hamas", "iran", "iranian",
   "tel aviv", "tehran", "netanyahu", "hezbollah", "palestine",
   "palestinian", "west bank", "jerusalem"].map String.data

/-- `contains_excluded_content` from the script: lowercase the text once
and test each term for substring membership. -/
def contains_excluded_content (l : List Char) : Bool :=
  let low := l.map Char.toLower
  excluded_terms.any (fun t => containsSub t low)

/-- The fixed promotional-phrase list tested inline in
`extract_messages`. -/
def boilerplate_phrases : List (List Char) :=
  ["subscribe", "donate", "follow us", "join us", "advertising"].map String.data

/-- The inline boilerplate gate of `extract_messages`: any of the
promotional phrases occurring in the lowercased cleaned text. -/
def containsBoilerplate (l : List Char) : Bool :=
  let low := l.map Char.toLower
  boilerplate_phrases.any (fun p => containsSub p low)

/-- A Python `datetime` value at second resolution. -/
structure PyDateTime where
  year : Nat
  month : Nat
  day : Nat
  hour : Nat
  minute : Nat
  second : Nat
deriving DecidableEq, Repr

/-- Numeric value of a decimal digit character. -/
def digitVal (c : Char) : Nat := c.toNat - 48

/-- Match the pattern `\[(\d\x7b4\x7d-\d\x7b2\x7d-\d\x7b2\x7d \d\x7b2\x7d:\d\x7b2\x7d:\d\x7b2\x7d)\]`
anchored at the start of `l`, returning the captured six numeric
fields. -/
def tsMatchAt (l : List Char) : Option PyDateTime :=
  match l with
  | '[' :: y1 :: y2 :: y3 :: y4 :: '-' :: m1 :: m2 :: '-' :: d1 :: d2 :: ' ' ::
      h1 :: h2 :: ':' :: n1 :: n2 :: ':' :: s1 :: s2 :: ']' :: _ =>
    if y1.isDigit && y2.isDigit && y3.isDigit && y4.isDigit && m1.isDigit && m2.isDigit &&
       d1.isDigit && d2.isDigit && h1.isDigit && h2.isDigit && n1.isDigit && n2.isDigit &&
       s1.isDigit && s2.isDigit then
      some ⟨digitVal y1 * 1000 + digitVal y2 * 100 + digitVal y3 * 10 + digitVal y4,
            digitVal m1 * 10 + digitVal m2,
            digitVal d1 * 10 + digitVal d2,
            digitVal h1 * 10 + digitVal h2,
            digitVal n1 * 10 + digitVal n2,
            digitVal s1 * 10 + digitVal s2⟩
    else none
  | _ => none

/-- `re.search` for the bracketed timestamp pattern: the first position
where the pattern matches wins, and the block is never re-scanned. -/
def tsSearch : List Char → Option PyDateTime
  | [] => none
  | c :: l =>
    match tsMatchAt (c :: l) with
    | some dt => some dt
    | none => tsSearch l

/-- Gregorian leap-year test, as used by Python `datetime`. -/
def isLeapYear (y : Nat) : Bool :=
  (y % 4 = 0 && y % 100 != 0) || y % 400 = 0

/-- Number of days in a month of the proleptic Gregorian calendar. -/
def daysInMonth (y m : Nat) : Nat :=
  if m = 2 then (if isLeapYear y then 29 else 28)
  else if m = 4 || m = 6 || m = 9 || m = 11 then 30
  else 31

/-- Validity of the captured fields: exactly the cases in which
`datetime.strptime(..., '%Y-%m-%d %H:%M:%S')` succeeds rather than
raising `ValueError` (which `parse_timestamp` turns into `None`). -/
def validDate (dt : PyDateTime) : Bool :=
  decide (1 ≤ dt.year ∧ dt.year ≤ 9999 ∧ 1 ≤ dt.month ∧ dt.month ≤ 12 ∧
    1 ≤ dt.day ∧ dt.day ≤ daysInMonth dt.year dt.month ∧
    dt.hour ≤ 23 ∧ dt.minute ≤ 59 ∧ dt.second ≤ 59)

/-- `parse_timestamp` from the script: search for the first bracketed
match; if its fields form a valid calendar instant return it, otherwise
return `none`. -/
def parse_timestamp (l : List Char) : Option PyDateTime :=
  match tsSearch l with
  | some dt => if validDate dt then some dt else none
  | none => none

/-- Two-digit zero-padded decimal rendering. -/
def pad2 (n : Nat) : List Char :=
  [Nat.digitChar (n / 10 % 10), Nat.digitChar (n % 10)]

/-- Four-digit zero-padded decimal rendering. -/
def pad4 (n : Nat) : List Char :=
  [Nat.digitChar (n / 1000 % 10), Nat.digitChar (n / 100 % 10),
   Nat.digitChar (n / 10 % 10), Nat.digitChar (n % 10)]

/-- `datetime.isoformat()` at second resolution:
`YYYY-MM-DDTHH:MM:SS`. -/
def isoformat (dt : PyDateTime) : String :=
  String.mk (pad4 dt.year ++ '-' :: pad2 dt.month ++ '-' :: pad2 dt.day ++
    'T' :: pad2 dt.hour ++ ':' :: pad2 dt.minute ++ ':' :: pad2 dt.second)

/-- One row of the `messages` list built by `extract_messages`. -/
structure Message where
  timestamp : Option String
  group : String
  text : String
  original_length : Nat
deriving DecidableEq, Repr

/-- The per-block body of the loop in `extract_messages`: strip the
block, discard it when shorter than 50 characters, extract the optional
timestamp, clean the text, apply the exclusion and boilerplate gates,
and accept only non-empty cleaned text longer than 100 characters. -/
def processBlock (group : String) (rawBlock : List Char) : Option Message :=
  let block := pyStrip rawBlock
  if block.length < 50 then none
  else
    let timestamp := parse_timestamp block
    let cleaned := clean_text block
    if contains_excluded_content cleaned then none
    else if containsBoilerplate cleaned then none
    else if cleaned ≠ [] ∧ 100 < cleaned.length then
      some ⟨timestamp.map isoformat, group, String.mk cleaned, block.length⟩
    else none

/-- Find the first run of 70 or more dashes (`-\x7b70,\x7d`, greedy):
returns the part before the run and the part after it. -/
def findDashRun : List Char → Option (List Char × List Char)
  | [] => none
  | c :: l =>
    if c = '-' ∧ 69 ≤ (l.takeWhile (· = '-')).length then
      some ([], l.dropWhile (· = '-'))
    else (findDashRun l).map (fun p => (c :: p.1, p.2))

/-- `re.split(r'-\x7b70,\x7d', group_content)`: the pieces between
separator runs, in order. -/
def splitBlocksF : Nat → List Char → List (List Char)
  | 0, l => [l]
  | fuel + 1, l =>
    match findDashRun l with
    | none => [l]
    | some (pre, rest) => pre :: splitBlocksF fuel rest

/-- Non-greedy scan for the `(.+?)\*\*` part of the group-header
pattern: the shortest non-empty newline-free capture followed by
`**`. -/
def splitName : List Char → Option (List Char × List Char)
  | [] => none
  | c :: l =>
    if c = '\n' then none
    else if l.take 2 = ['*', '*'] then some ([c], l.drop 2)
    else (splitName l).map (fun p => (c :: p.1, p.2))

/-- Match the header pattern `\*\*Group: (.+?)\*\*` anchored at the
start of `l`, returning the captured name and the residue. -/
def headerMatchAt (l : List Char) : Option (List Char × List Char) :=
  if l.take 9 = "**Group: ".data then splitName (l.drop 9) else none

/-- First header match in `l`: the text before the match, the captured
group name, and the residue after the match. -/
def findHeader : List Char → Option (List Char × List Char × List Char)
  | [] => none
  | c :: l =>
    match headerMatchAt (c :: l) with
    | some (name, rest) => some ([], name, rest)
    | none => (findHeader l).map (fun p => (c :: p.1, p.2.1, p.2.2))

/-- Successive `(name, body)` pairs from the residue after a header
match, mirroring how `re.split` with one capturing group alternates
captured names and bodies from index 1 onward. -/
def pairsFromF : Nat → List Char → List Char → List (List Char × List Char)
  | 0, name, rest => [(name, rest)]
  | fuel + 1, name, rest =>
    match findHeader rest with
    | none => [(name, rest)]
    | some (pre, name2, rest2) => (name, pre) :: pairsFromF fuel name2 rest2

/-- `re.split(r'\*\*Group: (.+?)\*\*', news_content)` reorganised as the
part before the first header plus the `(name, body)` pairs; the loop in
`extract_messages` reads only the pairs, never the leading part. -/
def splitGroups (l : List Char) : List Char × List (List Char × List Char) :=
  match findHeader l with
  | none => (l, [])
  | some (pre, name, rest) => (pre, pairsFromF rest.length name rest)

/-- `extract_messages` from the script: split into groups, split each
group body into blocks, and process each block in order. -/
def extract_messages (l : List Char) : List Message :=
  ((splitGroups l).2.map (fun p =>
    (splitBlocksF p.2.length p.2).filterMap
      (processBlock (String.mk (pyStrip p.1))))).flatten

/-- The sort key `lambda x: x['timestamp'] if x['timestamp'] else ''`
used by `preprocess_messages`. -/
def tsKey (m : Message) : String :=
  match m.timestamp with
  | some s => s
  | none => ""

/-- `messages.sort(key=...)`: a stable sort, ascending by the string
key. -/
def sortMessages (l : List Message) : List Message :=
  l.mergeSort (fun a b => decide (tsKey a ≤ tsKey b))

/-- Extraction followed by the timestamp sort: the `messages` array of
the output document. -/
def pipelineMessages (l : List Char) : List Message :=
  sortMessages (extract_messages l)

/-- Parse an `isoformat` string `YYYY-MM-DDTHH:MM:SS` back into a
datetime, validating the calendar fields as
`datetime.fromisoformat` does. -/
def isoMatch (l : List Char) : Option PyDateTime :=
  match l with
  | [y1, y2, y3, y4, '-', m1, m2, '-', d1, d2, 'T', h1, h2, ':', n1, n2, ':', s1, s2] =>
    if y1.isDigit && y2.isDigit && y3.isDigit && y4.isDigit && m1.isDigit && m2.isDigit &&
       d1.isDigit && d2.isDigit && h1.isDigit && h2.isDigit && n1.isDigit && n2.isDigit &&
       s1.isDigit && s2.isDigit then
      let dt : PyDateTime :=
        ⟨digitVal y1 * 1000 + digitVal y2 * 100 + digitVal y3 * 10 + digitVal y4,
         digitVal m1 * 10 + digitVal m2,
         digitVal d1 * 10 + digitVal d2,
         digitVal h1 * 10 + digitVal h2,
         digitVal n1 * 10 + digitVal n2,
         digitVal s1 * 10 + digitVal s2⟩
      if validDate dt then some dt else none
    else none
  | _ => none

/-- `datetime.fromisoformat` restricted to the canonical second-resolution
shape produced by `isoformat`. -/
def fromIso (s : String) : Option PyDateTime := isoMatch s.data

/-- Days before the first day of month `m` in a year with leap flag
`leap`. -/
def cumMonthDays (leap : Bool) (m : Nat) : Nat :=
  [0, 31, 59, 90, 120, 151, 181, 212, 243, 273, 304, 334].getD (m - 1) 0 +
    (if leap && decide (3 ≤ m) then 1 else 0)

/-- Days of the proleptic Gregorian calendar strictly before year `y`. -/
def daysBeforeYear (y : Nat) : Nat :=
  365 * (y - 1) + (y - 1) / 4 - (y - 1) / 100 + (y - 1) / 400

/-- Seconds since 0001-01-01 00:00:00; differences of this quantity are
exactly Python's `(a - b).total_seconds()` for second-resolution
datetimes. -/
def toSeconds (dt : PyDateTime) : ℤ :=
  ((daysBeforeYear dt.year + cumMonthDays (isLeapYear dt.year) dt.month + (dt.day - 1)) * 86400
    + dt.hour * 3600 + dt.minute * 60 + dt.second : Nat)

/-- Python `datetime` strict comparison: lexicographic on the six
fields. -/
def dtLt (a b : PyDateTime) : Bool :=
  decide (a.year < b.year ∨ (a.year = b.year ∧ (a.month < b.month ∨ (a.month = b.month ∧
    (a.day < b.day ∨ (a.day = b.day ∧ (a.hour < b.hour ∨ (a.hour = b.hour ∧
    (a.minute < b.minute ∨ (a.minute = b.minute ∧ a.second < b.second))))))))))

/-- Python `min` over a non-empty list: keep the current value unless a
later element is strictly smaller. -/
def dtMin (h : PyDateTime) (t : List PyDateTime) : PyDateTime :=
  t.foldl (fun acc x => if dtLt x acc then x else acc) h

/-- Python `max` over a non-empty list: keep the current value unless a
later element is strictly greater. -/
def dtMax (h : PyDateTime) (t : List PyDateTime) : PyDateTime :=
  t.foldl (fun acc x => if dtLt acc x then x else acc) h

/-- `strftime('%Y-%m-%d %H:%M:%S')` (zero-padded; years below 1000 are
platform-dependent in CPython and modelled as zero-padded). -/
def fmtWindow (dt : PyDateTime) : String :=
  String.mk (pad4 dt.year ++ '-' :: pad2 dt.month ++ '-' :: pad2 dt.day ++
    ' ' :: pad2 dt.hour ++ ':' :: pad2 dt.minute ++ ':' :: pad2 dt.second)

/-- `round(x, 2)` modelled over exact rationals. -/
def round2 (q : ℚ) : ℚ := (round (q * 100) : ℤ) / 100

/-- The `time_window` dictionary: `duration_hours` is `none` exactly
when the key is absent from the Python dict. -/
structure TimeWindow where
  start : String
  stop : String
  duration_hours : Option ℚ
deriving DecidableEq, Repr

/-- The `timestamps` list comprehension of `calculate_time_window`:
parse the timestamp of every message that carries one. -/
def datedTimestamps (messages : List Message) : List PyDateTime :=
  messages.filterMap (fun m => m.timestamp.bind fromIso)

/-- `calculate_time_window` from the script: collect the dated
timestamps, and either report the Unknown window (with no duration key)
or the min/max window with the rounded duration in hours. -/
def calculate_time_window (messages : List Message) : TimeWindow :=
  match datedTimestamps messages with
  | [] => ⟨"Unknown", "Unknown", none⟩
  | h :: t =>
    let start_time := dtMin h t
    let end_time := dtMax h t
    ⟨fmtWindow start_time, fmtWindow end_time,
      some (round2 (((toSeconds end_time - toSeconds start_time : ℤ) : ℚ) / 3600))⟩

/-- Test for an occurrence of the bare-URL pattern `https?://\S+`
anywhere in a text, reusing the anchored matcher of the cleaner. -/
def existsUrl : List Char → Bool
  | [] => false
  | c :: l => (urlMatchAt (c :: l)).isSome || existsUrl l

/-- The synthetic round-trip blob of the specification. -/
def blobC1 : List Char :=
  "**Group: A**\n".data ++ List.replicate 60 'x' ++ "[2024-01-01 10:00:00] ".data ++
  List.replicate 90 'y' ++ "\n".data ++ List.replicate 71 '-' ++ "\n".data

/-- The single message the round-trip blob produces. -/
def msgC1 : Message :=
  ⟨some "2024-01-01T10:00:00", "A",
   String.mk (List.replicate 60 'x' ++ "[2024-01-01 10:00:00] ".data ++ List.replicate 90 'y'),
   172⟩

/-- A block whose raw text contains the word `Israel` only inside an
`@`-mention, which the cleaner deletes before the exclusion gate runs. -/
def blockC5 : List Char := List.replicate 110 'b' ++ " @Israel".data

/-- A well-formed blob around `blockC5`. -/
def blobC5 : List Char :=
  "**Group: D**\n".data ++ blockC5 ++ "\n".data ++ List.replicate 71 '-' ++ "\n".data

/-- The message extracted from `blobC5`. -/
def msgC5 : Message := ⟨none, "D", String.mk (List.replicate 110 'b'), 118⟩

/-- A block in which deleting the dash run `---` (a step that runs after
URL removal) splices the characters `http://x` back together. -/
def blockC6 : List Char := List.replicate 110 'a' ++ " http:---//x".data

/-- A well-formed blob around `blockC6`. -/
def blobC6 : List Char :=
  "**Group: C**\n".data ++ blockC6 ++ "\n".data ++ List.replicate 71 '-' ++ "\n".data

/-- The message extracted from `blobC6`; its text contains a bare URL. -/
def msgC6 : Message :=
  ⟨none, "C", String.mk (List.replicate 110 'a' ++ " http://x".data), 122⟩

/-- A block whose bracketed timestamp has month 13, hence matches the
bracket pattern but fails calendar validation. -/
def blockC7 : List Char :=
  List.replicate 60 'z' ++ "[2024-13-01 10:00:00] ".data ++ List.replicate 90 'w'

/-- A well-formed blob around `blockC7`. -/
def blobC7 : List Char :=
  "**Group: B**\n".data ++ blockC7 ++ "\n".data ++ List.replicate 71 '-' ++ "\n".data

/-- The message extracted from `blobC7`: emitted with a null timestamp. -/
def msgC7 : Message := ⟨none, "B", String.mk blockC7, 172⟩

/-- The character list underlying `String.mk`. -/
theorem data_mk (l : List Char) : (String.mk l).data = l := rfl

/-- Unpacking of a successful `processBlock`: the accepted message is
built from the stripped block, and every gate evaluated in its favour. -/
theorem processBlock_some {g : String} {b : List Char} {m : Message}
    (h : processBlock g b = some m) :
    m.timestamp = (parse_timestamp (pyStrip b)).map isoformat ∧
    m.group = g ∧
    m.text = String.mk (clean_text (pyStrip b)) ∧
    m.original_length = (pyStrip b).length ∧
    contains_excluded_content (clean_text (pyStrip b)) = false ∧
    containsBoilerplate (clean_text (pyStrip b)) = false ∧
    100 < (clean_text (pyStrip b)).length := by
  simp only [processBlock] at h
  split_ifs at h with h1 h2 h3 h4
  injection h with h5
  subst h5
  exact ⟨rfl, rfl, rfl, rfl, by simpa using h2, by simpa using h3, h4.2⟩

/-- Every extracted message arises from some group and block through
`processBlock`. -/
theorem mem_extract {l : List Char} {m : Message} (h : m ∈ extract_messages l) :
    ∃ g b, processBlock g b = some m := by
  simp only [extract_messages, List.mem_flatten, List.mem_map] at h
  obtain ⟨sub, ⟨p, hp, rfl⟩, hm⟩ := h
  simp only [List.mem_filterMap] at hm
  obtain ⟨b, hb, hpb⟩ := hm
  exact ⟨_, _, hpb⟩

/-- C2: a candidate block becomes an emitted `Message` only if its
cleaned text is non-empty with length strictly greater than 100, so
every message in the output of `extract_messages` has text of length
greater than 100. -/
theorem c2_text_length_gt_100 : ∀ (blob : List Char) (m : Message),
    m ∈ extract_messages blob → m.text ≠ "" ∧ 100 < m.text.length := by
  intro blob m hm
  obtain ⟨g, b, hpb⟩ := mem_extract hm
  obtain ⟨-, -, htext, -, -, -, hlen⟩ := processBlock_some hpb
  have h2 : 100 < m.text.length := by
    rw [htext]
    exact hlen
  refine ⟨?_, h2⟩
  intro he
  rw [he] at h2
  rw [show ("" : String).length = 0 from rfl] at h2
  omega

/-- Witness for C2 at the concrete round-trip blob. -/
theorem c2_text_length_gt_100_witness : msgC1.text ≠ "" ∧ 100 < msgC1.text.length :=
  c2_text_length_gt_100 blobC1 msgC1 (by
    have h : extract_messages blobC1 = [msgC1] := by decide
    rw [h]
    exact List.mem_singleton_self _)

/-- The residue returned by `mdInner` is a sublist of its input. -/
theorem mdInner_sublist : ∀ (l t : List Char), mdInner l = some t → List.Sublist t l := by
  intro l
  induction l with
  | nil => intro t h; simp [mdInner] at h
  | cons c l ih =>
    intro t h
    rw [mdInner] at h
    split_ifs at h with h1 h2
    · injection h with h3
      subst h3
      exact List.sublist_cons_self _ _
    · exact (ih t h).trans (List.sublist_cons_self _ _)

/-- The residue returned by `mdAfterF` is a sublist of its input. -/
theorem mdAfterF_sublist : ∀ (f : Nat) (l t : List Char), mdAfterF f l = some t → List.Sublist t l := by
  intro f
  induction f with
  | zero => intro l t h; simp [mdAfterF] at h
  | succ f ih =>
    intro l t h
    match l with
    | [] => simp [mdAfterF] at h
    | c :: l =>
      rw [mdAfterF] at h
      split_ifs at h with h1 h2
      · rcases hin : mdInner (l.drop 1) with _ | u
        · rw [hin] at h
          exact ((ih l t h).trans (List.sublist_cons_self _ _))
        · rw [hin] at h
          injection h with h3
          subst h3
          exact (((mdInner_sublist _ _ hin).trans (List.drop_sublist _ _)).trans
            (List.sublist_cons_self _ _))
      · exact ((ih l t h).trans (List.sublist_cons_self _ _))

/-- The residue returned by `urlTail` is a sublist of its input. -/
theorem urlTail_sublist (r t : List Char) (h : urlTail r = some t) : List.Sublist t r := by
  unfold urlTail at h
  split at h
  · rename_i r2
    split at h
    · simp at h
    · split_ifs at h with h1
      injection h with h3
      subst h3
      exact (List.dropWhile_sublist _).trans ((((List.Sublist.refl _).cons _).cons _).cons _)
  · simp at h

/-- The residue returned by `urlMatchAt` is a sublist of its input. -/
theorem urlMatchAt_sublist (l t : List Char) (h : urlMatchAt l = some t) : List.Sublist t l := by
  unfold urlMatchAt at h
  split at h
  · rename_i rest
    have hlift : ∀ x : List Char, List.Sublist x rest → List.Sublist x ('h' :: 't' :: 't' :: 'p' :: rest) :=
      fun x hx => (((hx.cons _).cons _).cons _).cons _
    split at h
    · rename_i r
      rcases hu : urlTail r with _ | u
      · rw [hu] at h
        exact hlift t (urlTail_sublist _ _ h)
      · rw [hu] at h
        injection h with h3
        subst h3
        exact hlift _ ((urlTail_sublist _ _ hu).cons _)
    · exact hlift t (urlTail_sublist _ _ h)
  · simp at h

/-- The residue returned by `tmeMatchAt` is a sublist of its input. -/
theorem tmeMatchAt_sublist (l t : List Char) (h : tmeMatchAt l = some t) : List.Sublist t l := by
  unfold tmeMatchAt at h
  split at h
  · split at h
    · simp at h
    · split_ifs at h with h1
      injection h with h3
      subst h3
      exact (List.dropWhile_sublist _).trans
        (((((((List.Sublist.refl _).cons _).cons _).cons _).cons _).cons _))
  · simp at h

/-- Characters of `subMentionF` output come from the input. -/
theorem mem_subMentionF : ∀ (f : Nat) (l : List Char) (c : Char),
    c ∈ subMentionF f l → c ∈ l := by
  intro f
  induction f with
  | zero => intro l c h; simpa [subMentionF] using h
  | succ f ih =>
    intro l c h
    cases l with
    | nil => simpa [subMentionF] using h
    | cons a l =>
      rw [subMentionF] at h
      split_ifs at h with hc
      · exact List.mem_cons_of_mem _ ((List.dropWhile_sublist _).subset (ih _ _ h))
      · rcases List.mem_cons.mp h with rfl | h2
        · exact List.mem_cons_self _ _
        · exact List.mem_cons_of_mem _ (ih _ _ h2)

/-- Characters of `subMdF` output come from the input. -/
theorem mem_subMdF : ∀ (f : Nat) (l : List Char) (c : Char),
    c ∈ subMdF f l → c ∈ l := by
  intro f
  induction f with
  | zero => intro l c h; simpa [subMdF] using h
  | succ f ih =>
    intro l c h
    cases l with
    | nil => simpa [subMdF] using h
    | cons a l =>
      rw [subMdF] at h
      split_ifs at h with hc
      · rcases hm : mdAfterF (l.length + 1) l with _ | u
        · rw [hm] at h
          rcases List.mem_cons.mp h with rfl | h2
          · exact List.mem_cons_self _ _
          · exact List.mem_cons_of_mem _ (ih _ _ h2)
        · rw [hm] at h
          exact List.mem_cons_of_mem _ ((mdAfterF_sublist _ _ _ hm).subset (ih _ _ h))
      · rcases List.mem_cons.mp h with rfl | h2
        · exact List.mem_cons_self _ _
        · exact List.mem_cons_of_mem _ (ih _ _ h2)

/-- Characters of `subUrlF` output come from the input. -/
theorem mem_subUrlF : ∀ (f : Nat) (l : List Char) (c : Char),
    c ∈ subUrlF f l → c ∈ l := by
  intro f
  induction f with
  | zero => intro l c h; simpa [subUrlF] using h
  | succ f ih =>
    intro l c h
    cases l with
    | nil => simpa [subUrlF] using h
    | cons a l =>
      rw [subUrlF] at h
      rcases hm : urlMatchAt (a :: l) with _ | u
      · rw [hm] at h
        rcases List.mem_cons.mp h with rfl | h2
        · exact List.mem_cons_self _ _
        · exact List.mem_cons_of_mem _ (ih _ _ h2)
      · rw [hm] at h
        exact (urlMatchAt_sublist _ _ hm).subset (ih _ _ h)

/-- Characters of `subTmeF` output come from the input. -/
theorem mem_subTmeF : ∀ (f : Nat) (l : List Char) (c : Char),
    c ∈ subTmeF f l → c ∈ l := by
  intro f
  induction f with
  | zero => intro l c h; simpa [subTmeF] using h
  | succ f ih =>
    intro l c h
    cases l with
    | nil => simpa [subTmeF] using h
    | cons a l =>
      rw [subTmeF] at h
      rcases hm : tmeMatchAt (a :: l) with _ | u
      · rw [hm] at h
        rcases List.mem_cons.mp h with rfl | h2
        · exact List.mem_cons_self _ _
        · exact List.mem_cons_of_mem _ (ih _ _ h2)
      · rw [hm] at h
        exact (tmeMatchAt_sublist _ _ hm).subset (ih _ _ h)

/-- Characters of `subRun3F` output come from the input. -/
theorem mem_subRun3F (ch : Char) : ∀ (f : Nat) (l : List Char) (c : Char),
    c ∈ subRun3F ch f l → c ∈ l := by
  intro f
  induction f with
  | zero => intro l c h; simpa [subRun3F] using h
  | succ f ih =>
    intro l c h
    cases l with
    | nil => simpa [subRun3F] using h
    | cons a l =>
      rw [subRun3F] at h
      split_ifs at h with hc
      · exact List.mem_cons_of_mem _ ((List.dropWhile_sublist _).subset (ih _ _ h))
      · rcases List.mem_cons.mp h with rfl | h2
        · exact List.mem_cons_self _ _
        · exact List.mem_cons_of_mem _ (ih _ _ h2)

/-- Characters of `subNlF` output come from the input, except for the
newline characters it writes itself. -/
theorem mem_subNlF : ∀ (f : Nat) (l : List Char) (c : Char),
    c ∈ subNlF f l → c ∈ l ∨ c = '\n' := by
  intro f
  induction f with
  | zero => intro l c h; exact Or.inl (by simpa [subNlF] using h)
  | succ f ih =>
    intro l c h
    cases l with
    | nil => simp [subNlF] at h
    | cons a l =>
      rw [subNlF] at h
      split_ifs at h with hc
      · rcases List.mem_cons.mp h with rfl | h2
        · exact Or.inr rfl
        · rcases List.mem_cons.mp h2 with rfl | h3
          · exact Or.inr rfl
          · rcases ih _ _ h3 with hin | rfl
            · exact Or.inl (List.mem_cons_of_mem _ ((List.dropWhile_sublist _).subset hin))
            · exact Or.inr rfl
      · rcases List.mem_cons.mp h with rfl | h2
        · exact Or.inl (List.mem_cons_self _ _)
        · rcases ih _ _ h2 with hin | rfl
          · exact Or.inl (List.mem_cons_of_mem _ hin)
          · exact Or.inr rfl

/-- Characters of `subSpaceF` output come from the input, except for the
space characters it writes itself. -/
theorem mem_subSpaceF : ∀ (f : Nat) (l : List Char) (c : Char),
    c ∈ subSpaceF f l → c ∈ l ∨ c = ' ' := by
  intro f
  induction f with
  | zero => intro l c h; exact Or.inl (by simpa [subSpaceF] using h)
  | succ f ih =>
    intro l c h
    cases l with
    | nil => simp [subSpaceF] at h
    | cons a l =>
      rw [subSpaceF] at h
      split_ifs at h with hc
      · rcases List.mem_cons.mp h with rfl | h2
        · exact Or.inr rfl
        · rcases ih _ _ h2 with hin | rfl
          · exact Or.inl (List.mem_cons_of_mem _ ((List.dropWhile_sublist _).subset hin))
          · exact Or.inr rfl
      · rcases List.mem_cons.mp h with rfl | h2
        · exact Or.inl (List.mem_cons_self _ _)
        · rcases ih _ _ h2 with hin | rfl
          · exact Or.inl (List.mem_cons_of_mem _ hin)
          · exact Or.inr rfl

/-- Characters of `pyStrip` output come from the input. -/
theorem mem_pyStrip (l : List Char) (c : Char) (h : c ∈ pyStrip l) : c ∈ l := by
  rw [pyStrip] at h
  rw [List.mem_reverse] at h
  have h2 := (List.dropWhile_sublist _).subset h
  rw [List.mem_reverse] at h2
  exact (List.dropWhile_sublist _).subset h2

/-- No character of a cleaned text lies in the emoji ranges: the first
pass deletes them and the later passes only delete characters or write
newlines and spaces. -/
theorem clean_text_no_emoji (l : List Char) (c : Char) (h : c ∈ clean_text l) :
    isEmojiChar c = false := by
  simp only [clean_text] at h
  have h9 := mem_pyStrip _ _ h
  rcases mem_subSpaceF _ _ _ h9 with h8 | rfl
  · rcases mem_subNlF _ _ _ h8 with h7 | rfl
    · have h6 := mem_subRun3F '=' _ _ _ h7
      have h5 := mem_subRun3F '-' _ _ _ h6
      have h4 := mem_subTmeF _ _ _ h5
      have h3 := mem_subUrlF _ _ _ h4
      have h2 := mem_subMdF _ _ _ h3
      have h1 := mem_subMentionF _ _ _ h2
      rw [remove_emojis] at h1
      simpa using (List.mem_filter.mp h1).2
    · decide
  · decide

/-- C1: the synthetic round-trip blob produces exactly one message,
with group `A`, timestamp `2024-01-01T10:00:00`, and text containing
the run of 90 `y` characters; the sorted output equals the same
singleton. -/
theorem c1_round_trip :
    extract_messages blobC1 = [msgC1] ∧
    pipelineMessages blobC1 = [msgC1] ∧
    msgC1.group = "A" ∧
    msgC1.timestamp = some "2024-01-01T10:00:00" ∧
    containsSub (List.replicate 90 'y') msgC1.text.data = true := by
  have h : extract_messages blobC1 = [msgC1] := by decide
  refine ⟨h, ?_, rfl, rfl, by decide⟩
  rw [pipelineMessages, h, sortMessages]
  simp

/-- C5 counterexample: the stripped block fed to the gates is
`blockC5`, whose raw text contains the word `Israel`
(case-insensitively), yet `extract_messages` emits a message for it:
the exclusion gate runs on the cleaned text, and cleaning deleted the
whole mention `@Israel` before the gate could see it. -/
theorem c5_counterexample :
    containsSub "israel".data (blockC5.map Char.toLower) = true ∧
    pyStrip ("\n".data ++ blockC5 ++ "\n".data) = blockC5 ∧
    extract_messages blobC5 = [msgC5] :=
  ⟨by decide, by decide, by decide⟩

/-- C5 amended: the exclusion check runs on the cleaned text, so no
emitted message's cleaned text contains `israel` case-insensitively;
a block whose raw text contains the word can still be emitted when
cleaning removes the word. -/
theorem c5_amended_no_israel_in_cleaned : ∀ (blob : List Char) (m : Message),
    m ∈ extract_messages blob →
    containsSub "israel".data (m.text.data.map Char.toLower) = false := by
  intro blob m hm
  obtain ⟨g, b, hpb⟩ := mem_extract hm
  obtain ⟨-, -, htext, -, hexcl, -, -⟩ := processBlock_some hpb
  rw [htext, data_mk]
  simp only [contains_excluded_content] at hexcl
  have hterm := List.any_eq_false.mp hexcl "israel".data (by decide)
  simpa using hterm

/-- Witness for the amended C5 at the concrete blob `blobC5`. -/
theorem c5_amended_witness :
    containsSub "israel".data (msgC5.text.data.map Char.toLower) = false :=
  c5_amended_no_israel_in_cleaned blobC5 msgC5 (by
    have h : extract_messages blobC5 = [msgC5] := by decide
    rw [h]
    exact List.mem_singleton_self _)

/-- C6 counterexample: the message extracted from `blobC6` carries a
bare URL (`http://` followed by non-whitespace) in its final text,
because the dash-collapsing step runs after URL removal and splices
`http://x` together out of `http:`, a three-dash run, and `//x`. -/
theorem c6_counterexample :
    extract_messages blobC6 = [msgC6] ∧ existsUrl msgC6.text.data = true :=
  ⟨by decide, by decide⟩

/-- C6 amended: of the three noise classes, only the emoji guarantee
survives: every emitted message's text contains no character from the
enumerated emoji ranges; bare URLs and mentions can be reintroduced by
the later dash and equals collapsing passes. -/
theorem c6_amended_no_emoji : ∀ (blob : List Char) (m : Message),
    m ∈ extract_messages blob → ∀ c ∈ m.text.data, isEmojiChar c = false := by
  intro blob m hm c hc
  obtain ⟨g, b, hpb⟩ := mem_extract hm
  obtain ⟨-, -, htext, -, -, -, -⟩ := processBlock_some hpb
  rw [htext, data_mk] at hc
  exact clean_text_no_emoji _ _ hc

/-- Witness for the amended C6 at the concrete blob `blobC6`. -/
theorem c6_amended_witness : isEmojiChar 'a' = false :=
  c6_amended_no_emoji blobC6 msgC6
    (by
      have h : extract_messages blobC6 = [msgC6] := by decide
      rw [h]
      exact List.mem_singleton_self _)
    'a' (by decide)

/-- The length of a `String.mk`. -/
theorem length_mk (l : List Char) : (String.mk l).length = l.length := rfl

/-- `subMentionF` never lengthens its input. -/
theorem length_subMentionF : ∀ (f : Nat) (l : List Char),
    (subMentionF f l).length ≤ l.length := by
  intro f
  induction f with
  | zero => intro l; simp [subMentionF]
  | succ f ih =>
    intro l
    cases l with
    | nil => simp [subMentionF]
    | cons a l =>
      rw [subMentionF]
      split_ifs with hc
      · exact le_trans (ih _) (le_trans ((List.dropWhile_sublist _).length_le) (Nat.le_succ _))
      · simpa using Nat.succ_le_succ (ih l)

/-- `subMdF` never lengthens its input. -/
theorem length_subMdF : ∀ (f : Nat) (l : List Char),
    (subMdF f l).length ≤ l.length := by
  intro f
  induction f with
  | zero => intro l; simp [subMdF]
  | succ f ih =>
    intro l
    cases l with
    | nil => simp [subMdF]
    | cons a l =>
      rw [subMdF]
      split_ifs with hc
      · rcases hm : mdAfterF (l.length + 1) l with _ | u
        · simpa using Nat.succ_le_succ (ih l)
        · exact le_trans (ih u)
            (le_trans ((mdAfterF_sublist _ _ _ hm).length_le) (Nat.le_succ _))
      · simpa using Nat.succ_le_succ (ih l)

/-- `subUrlF` never lengthens its input. -/
theorem length_subUrlF : ∀ (f : Nat) (l : List Char),
    (subUrlF f l).length ≤ l.length := by
  intro f
  induction f with
  | zero => intro l; simp [subUrlF]
  | succ f ih =>
    intro l
    cases l with
    | nil => simp [subUrlF]
    | cons a l =>
      rw [subUrlF]
      rcases hm : urlMatchAt (a :: l) with _ | u
      · simpa using Nat.succ_le_succ (ih l)
      · exact le_trans (ih u) ((urlMatchAt_sublist _ _ hm).length_le)

/-- `subTmeF` never lengthens its input. -/
theorem length_subTmeF : ∀ (f : Nat) (l : List Char),
    (subTmeF f l).length ≤ l.length := by
  intro f
  induction f with
  | zero => intro l; simp [subTmeF]
  | succ f ih =>
    intro l
    cases l with
    | nil => simp [subTmeF]
    | cons a l =>
      rw [subTmeF]
      rcases hm : tmeMatchAt (a :: l) with _ | u
      · simpa using Nat.succ_le_succ (ih l)
      · exact le_trans (ih u) ((tmeMatchAt_sublist _ _ hm).length_le)

/-- `subRun3F` never lengthens its input. -/
theorem length_subRun3F (ch : Char) : ∀ (f : Nat) (l : List Char),
    (subRun3F ch f l).length ≤ l.length := by
  intro f
  induction f with
  | zero => intro l; simp [subRun3F]
  | succ f ih =>
    intro l
    cases l with
    | nil => simp [subRun3F]
    | cons a l =>
      rw [subRun3F]
      split_ifs with hc
      · exact le_trans (ih _) (le_trans ((List.dropWhile_sublist _).length_le) (Nat.le_succ _))
      · simpa using Nat.succ_le_succ (ih l)

/-- `subNlF` never lengthens its input: a collapsed newline run had at
least three characters and is replaced by two. -/
theorem length_subNlF : ∀ (f : Nat) (l : List Char),
    (subNlF f l).length ≤ l.length := by
  intro f
  induction f with
  | zero => intro l; simp [subNlF]
  | succ f ih =>
    intro l
    cases l with
    | nil => simp [subNlF]
    | cons a l =>
      rw [subNlF]
      split_ifs with hc
      · obtain ⟨-, hc2⟩ := hc
        have hsplit : (l.takeWhile (· = '\n')).length + (l.dropWhile (· = '\n')).length
            = l.length := by
          rw [← List.length_append, List.takeWhile_append_dropWhile]
        have hrec := ih (l.dropWhile (· = '\n'))
        simp only [List.length_cons]
        omega
      · simpa using Nat.succ_le_succ (ih l)

/-- `subSpaceF` never lengthens its input: a collapsed space run had at
least two characters and is replaced by one. -/
theorem length_subSpaceF : ∀ (f : Nat) (l : List Char),
    (subSpaceF f l).length ≤ l.length := by
  intro f
  induction f with
  | zero => intro l; simp [subSpaceF]
  | succ f ih =>
    intro l
    cases l with
    | nil => simp [subSpaceF]
    | cons a l =>
      rw [subSpaceF]
      split_ifs with hc
      · obtain ⟨-, hc2⟩ := hc
        have hsplit : (l.takeWhile (· = ' ')).length + (l.dropWhile (· = ' ')).length
            = l.length := by
          rw [← List.length_append, List.takeWhile_append_dropWhile]
        have hrec := ih (l.dropWhile (· = ' '))
        simp only [List.length_cons]
        omega
      · simpa using Nat.succ_le_succ (ih l)

/-- `pyStrip` never lengthens its input. -/
theorem length_pyStrip (l : List Char) : (pyStrip l).length ≤ l.length := by
  rw [pyStrip, List.length_reverse]
  refine le_trans ((List.dropWhile_sublist _).length_le) ?_
  rw [List.length_reverse]
  exact (List.dropWhile_sublist _).length_le

/-- Every pass of `clean_text` deletes or shrinks, so the cleaned text
is never longer than the input. -/
theorem length_clean_text (l : List Char) : (clean_text l).length ≤ l.length := by
  simp only [clean_text]
  refine le_trans (length_pyStrip _) ?_
  refine le_trans (length_subSpaceF _ _) ?_
  refine le_trans (length_subNlF _ _) ?_
  refine le_trans (length_subRun3F '=' _ _) ?_
  refine le_trans (length_subRun3F '-' _ _) ?_
  refine le_trans (length_subTmeF _ _) ?_
  refine le_trans (length_subUrlF _ _) ?_
  refine le_trans (length_subMdF _ _) ?_
  refine le_trans (length_subMentionF _ _) ?_
  exact List.length_filter_le _ _

/-- C10: cleaning never lengthens a text, so every emitted message has
`original_length` at least the length of its cleaned text, and hence
`original_length` greater than 100. -/
theorem c10_original_length_bounds :
    (∀ l : List Char, (clean_text l).length ≤ l.length) ∧
    (∀ (blob : List Char) (m : Message), m ∈ extract_messages blob →
      m.text.length ≤ m.original_length ∧ 100 < m.original_length) := by
  refine ⟨length_clean_text, ?_⟩
  intro blob m hm
  obtain ⟨g, b, hpb⟩ := mem_extract hm
  obtain ⟨-, -, htext, horig, -, -, hlen⟩ := processBlock_some hpb
  constructor
  · rw [horig, htext, length_mk]
    exact length_clean_text _
  · rw [horig]
    exact lt_of_lt_of_le hlen (length_clean_text _)

/-- Witness for C10 at the concrete round-trip blob. -/
theorem c10_original_length_bounds_witness :
    (clean_text "abc".data).length ≤ "abc".data.length ∧
    msgC1.text.length ≤ msgC1.original_length ∧ 100 < msgC1.original_length := by
  have hmem : msgC1 ∈ extract_messages blobC1 := by
    have h : extract_messages blobC1 = [msgC1] := by decide
    rw [h]
    exact List.mem_singleton_self _
  exact ⟨c10_original_length_bounds.1 _,
    (c10_original_length_bounds.2 blobC1 msgC1 hmem).1,
    (c10_original_length_bounds.2 blobC1 msgC1 hmem).2⟩

/-- C7: when the bracketed timestamp pattern matches but the captured
fields are not a valid calendar instant, `parse_timestamp` returns
`none` rather than failing the block; the concrete month-13 blob flows
through cleaning and filtering and is emitted with a null timestamp. -/
theorem c7_invalid_timestamp_is_none :
    (∀ (l : List Char) (dt : PyDateTime),
      tsSearch l = some dt → validDate dt = false → parse_timestamp l = none) ∧
    tsSearch blockC7 = some ⟨2024, 13, 1, 10, 0, 0⟩ ∧
    validDate ⟨2024, 13, 1, 10, 0, 0⟩ = false ∧
    extract_messages blobC7 = [msgC7] ∧
    msgC7.timestamp = none := by
  refine ⟨?_, by decide, by decide, by decide, rfl⟩
  intro l dt hs hv
  simp [parse_timestamp, hs, hv]

/-- Witness for C7: the month-13 block parses to no timestamp. -/
theorem c7_invalid_timestamp_is_none_witness : parse_timestamp blockC7 = none :=
  c7_invalid_timestamp_is_none.1 blockC7 ⟨2024, 13, 1, 10, 0, 0⟩ (by decide) (by decide)

/-- Dropping the pre-header prefix leaves the first header match at the
start of the blob. -/
theorem findHeader_drop : ∀ (l pre n t : List Char),
    findHeader l = some (pre, n, t) →
    findHeader (l.drop pre.length) = some ([], n, t) := by
  intro l
  induction l with
  | nil => intro pre n t h; simp [findHeader] at h
  | cons c l ih =>
    intro pre n t h
    rw [findHeader] at h
    rcases hm : headerMatchAt (c :: l) with _ | p
    · rw [hm] at h
      rcases hf : findHeader l with _ | q
      · rw [hf] at h
        simp at h
      · rcases q with ⟨q1, q2, q3⟩
        rw [hf] at h
        simp only [Option.map_some] at h
        injection h with h2
        have hpre : c :: q1 = pre := congrArg (fun x => x.1) h2
        have hn : q2 = n := congrArg (fun x => x.2.1) h2
        have ht : q3 = t := congrArg (fun x => x.2.2) h2
        subst hpre
        subst hn
        subst ht
        simp only [List.length_cons, List.drop_succ_cons]
        exact ih q1 q2 q3 hf
    · rcases p with ⟨pn, pr⟩
      rw [hm] at h
      injection h with h2
      have hpre : pre = [] := (congrArg Prod.fst h2).symm
      have hn : n = pn := (congrArg (fun x => x.2.1) h2).symm
      have ht : t = pr := (congrArg (fun x => x.2.2) h2).symm
      subst hpre
      subst hn
      subst ht
      simp only [List.length_nil, List.drop_zero]
      rw [findHeader, hm]

/-- C8: content before the first group header contributes nothing —
removing it leaves `extract_messages` unchanged — and a blob with no
header anywhere yields zero messages. -/
theorem c8_preheader_never_scanned : ∀ (l : List Char),
    (∀ pre n t, findHeader l = some (pre, n, t) →
      extract_messages (l.drop pre.length) = extract_messages l) ∧
    (findHeader l = none → extract_messages l = []) := by
  intro l
  constructor
  · intro pre n t h
    have h2 := findHeader_drop l pre n t h
    simp only [extract_messages, splitGroups, h, h2]
  · intro h
    simp [extract_messages, splitGroups, h]

/-- Witness for C8: dropping the four junk characters before the header
does not change the extraction result. -/
theorem c8_preheader_never_scanned_witness :
    extract_messages ("junk**Group: A**abc".data.drop ("junk".data.length)) =
      extract_messages "junk**Group: A**abc".data :=
  (c8_preheader_never_scanned _).1 "junk".data "A".data "abc".data (by decide)

/-- C9 (code bug): for a successfully-unwrapped input whose blob is
`hello`, extraction yields zero messages, so the computed time window is
the Unknown dictionary carrying no `duration_hours` entry; the summary
print of `preprocess_messages` nevertheless reads
`time_window['duration_hours']` unconditionally, which raises `KeyError`
in exactly this situation, so the run does crash after the read/parse
stage. -/
theorem c9_missing_duration_key :
    extract_messages "hello".data = [] ∧
    calculate_time_window (pipelineMessages "hello".data) = ⟨"Unknown", "Unknown", none⟩ ∧
    (calculate_time_window (pipelineMessages "hello".data)).duration_hours = none := by
  have h : extract_messages "hello".data = [] := by decide
  have h2 : pipelineMessages "hello".data = [] := by
    rw [pipelineMessages, h, sortMessages]
    simp
  refine ⟨h, ?_, ?_⟩ <;> rw [h2] <;> simp [calculate_time_window, datedTimestamps]

/-- The empty string is the least string in the lexicographic order, so
the empty key of an undated message sorts before every dated key. -/
theorem empty_string_le (s : String) : ("" : String) ≤ s := by
  rw [String.le_iff_toList_le]
  rw [show ("" : String).toList = [] from rfl]
  exact List.nil_le

/-- C3: the timestamp sort is a permutation of the extracted sequence,
is sorted by the string key (undated messages carry the empty key, which
is minimal), and is stable: messages with equal keys keep their relative
encounter order. -/
theorem c3_sort_sorted_stable : ∀ (l : List Message),
    List.Perm (sortMessages l) l ∧
    (sortMessages l).Pairwise (fun a b => tsKey a ≤ tsKey b) ∧
    (∀ k : String, (sortMessages l).filter (fun m => decide (tsKey m = k)) =
      l.filter (fun m => decide (tsKey m = k))) ∧
    (∀ (g t : String) (n : Nat), tsKey ⟨none, g, t, n⟩ = "") ∧
    (∀ s : String, ("" : String) ≤ s) := by
  intro l
  have htrans : ∀ a b c : Message, (decide (tsKey a ≤ tsKey b)) = true →
      (decide (tsKey b ≤ tsKey c)) = true → (decide (tsKey a ≤ tsKey c)) = true := by
    intro a b c hab hbc
    simp only [decide_eq_true_eq] at hab hbc ⊢
    exact le_trans hab hbc
  have htotal : ∀ a b : Message,
      ((decide (tsKey a ≤ tsKey b)) || (decide (tsKey b ≤ tsKey a))) = true := by
    intro a b
    rcases le_total (tsKey a) (tsKey b) with h | h <;> simp [h]
  refine ⟨?_, ?_, ?_, fun g t n => rfl, empty_string_le⟩
  · rw [sortMessages]
    exact List.mergeSort_perm l _
  · rw [sortMessages]
    exact (List.sorted_mergeSort htrans htotal l).imp (fun h => by simpa using h)
  · intro k
    have hself : (l.filter (fun m => decide (tsKey m = k))).filter
        (fun m => decide (tsKey m = k)) = l.filter (fun m => decide (tsKey m = k)) :=
      List.filter_eq_self.mpr (fun a ha => (List.mem_filter.mp ha).2)
    have hpair : (l.filter (fun m => decide (tsKey m = k))).Pairwise
        (fun a b => (decide (tsKey a ≤ tsKey b)) = true) := by
      apply List.pairwise_of_forall_mem_list
      intro a ha b hb
      have hak := (List.mem_filter.mp ha).2
      have hbk := (List.mem_filter.mp hb).2
      simp only [decide_eq_true_eq] at hak hbk ⊢
      rw [hak, hbk]
    have hsub : List.Sublist (l.filter (fun m => decide (tsKey m = k))) (sortMessages l) := by
      rw [sortMessages]
      exact List.sublist_mergeSort htrans htotal hpair (List.filter_sublist l)
    have hsub2 : List.Sublist (l.filter (fun m => decide (tsKey m = k)))
        ((sortMessages l).filter (fun m => decide (tsKey m = k))) := by
      have h3 := hsub.filter (fun m => decide (tsKey m = k))
      rwa [hself] at h3
    have hperm : List.Perm ((sortMessages l).filter (fun m => decide (tsKey m = k)))
        (l.filter (fun m => decide (tsKey m = k))) := by
      rw [sortMessages]
      exact (List.mergeSort_perm l _).filter _
    exact (hsub2.eq_of_length hperm.length_eq.symm).symm

/-- The datetime comparison is irreflexive. -/
theorem dtLt_irrefl (a : PyDateTime) : dtLt a a = false := by
  cases a
  simp only [dtLt, decide_eq_false_iff_not]
  omega

/-- The datetime comparison is asymmetric. -/
theorem dtLt_asymm {a b : PyDateTime} (h : dtLt a b = true) : dtLt b a = false := by
  cases a
  cases b
  simp only [dtLt, decide_eq_true_eq, decide_eq_false_iff_not] at h ⊢
  omega

/-- Linearity of the datetime comparison: a strict comparison passes
through any intermediate value. -/
theorem dtLt_linear {a c : PyDateTime} (b : PyDateTime) (h : dtLt a c = true) :
    dtLt a b = true ∨ dtLt b c = true := by
  cases a
  cases b
  cases c
  simp only [dtLt, decide_eq_true_eq] at h ⊢
  omega

/-- The running minimum of the fold never exceeds its seed. -/
theorem dtMin_le_init : ∀ (t : List PyDateTime) (acc : PyDateTime),
    dtLt acc (t.foldl (fun a x => if dtLt x a then x else a) acc) = false := by
  intro t
  induction t with
  | nil => intro acc; simpa using dtLt_irrefl acc
  | cons y t ih =>
    intro acc
    simp only [List.foldl_cons]
    split_ifs with hy
    · by_contra hcon
      rw [Bool.not_eq_false] at hcon
      rcases dtLt_linear y hcon with h1 | h2
      · have h3 := dtLt_asymm hy
        rw [h1] at h3
        simp at h3
      · have h3 := ih y
        rw [h2] at h3
        simp at h3
    · exact ih acc

/-- The running minimum of the fold is a lower bound of the traversed
elements. -/
theorem dtMin_le_mem : ∀ (t : List PyDateTime) (acc x : PyDateTime), x ∈ t →
    dtLt x (t.foldl (fun a y => if dtLt y a then y else a) acc) = false := by
  intro t
  induction t with
  | nil => intro acc x hx; simp at hx
  | cons y t ih =>
    intro acc x hx
    simp only [List.foldl_cons]
    rcases List.mem_cons.mp hx with rfl | hx2
    · split_ifs with hy
      · exact dtMin_le_init t x
      · rw [Bool.not_eq_true] at hy
        by_contra hcon
        rw [Bool.not_eq_false] at hcon
        rcases dtLt_linear acc hcon with h1 | h2
        · rw [h1] at hy
          simp at hy
        · have h3 := dtMin_le_init t acc
          rw [h2] at h3
          simp at h3
    · exact ih _ x hx2

/-- The running minimum of the fold is the seed or one of the traversed
elements. -/
theorem dtMin_mem : ∀ (t : List PyDateTime) (acc : PyDateTime),
    (t.foldl (fun a y => if dtLt y a then y else a) acc) = acc ∨
    (t.foldl (fun a y => if dtLt y a then y else a) acc) ∈ t := by
  intro t
  induction t with
  | nil => intro acc; exact Or.inl rfl
  | cons y t ih =>
    intro acc
    simp only [List.foldl_cons]
    split_ifs with hy
    · rcases ih y with h | h
      · exact Or.inr (by rw [h]; exact List.mem_cons_self _ _)
      · exact Or.inr (List.mem_cons_of_mem _ h)
    · rcases ih acc with h | h
      · exact Or.inl h
      · exact Or.inr (List.mem_cons_of_mem _ h)

/-- The running maximum of the fold never falls below its seed. -/
theorem dtMax_ge_init : ∀ (t : List PyDateTime) (acc : PyDateTime),
    dtLt (t.foldl (fun a x => if dtLt a x then x else a) acc) acc = false := by
  intro t
  induction t with
  | nil => intro acc; simpa using dtLt_irrefl acc
  | cons y t ih =>
    intro acc
    simp only [List.foldl_cons]
    split_ifs with hy
    · by_contra hcon
      rw [Bool.not_eq_false] at hcon
      rcases dtLt_linear y hcon with h1 | h2
      · have h3 := ih y
        rw [h1] at h3
        simp at h3
      · have h3 := dtLt_asymm hy
        rw [h2] at h3
        simp at h3
    · exact ih acc

/-- The running maximum of the fold is an upper bound of the traversed
elements. -/
theorem dtMax_ge_mem : ∀ (t : List PyDateTime) (acc x : PyDateTime), x ∈ t →
    dtLt (t.foldl (fun a y => if dtLt a y then y else a) acc) x = false := by
  intro t
  induction t with
  | nil => intro acc x hx; simp at hx
  | cons y t ih =>
    intro acc x hx
    simp only [List.foldl_cons]
    rcases List.mem_cons.mp hx with rfl | hx2
    · split_ifs with hy
      · exact dtMax_ge_init t x
      · rw [Bool.not_eq_true] at hy
        by_contra hcon
        rw [Bool.not_eq_false] at hcon
        rcases dtLt_linear acc hcon with h1 | h2
        · have h3 := dtMax_ge_init t acc
          rw [h1] at h3
          simp at h3
        · rw [h2] at hy
          simp at hy
    · exact ih _ x hx2

/-- The running maximum of the fold is the seed or one of the traversed
elements. -/
theorem dtMax_mem : ∀ (t : List PyDateTime) (acc : PyDateTime),
    (t.foldl (fun a y => if dtLt a y then y else a) acc) = acc ∨
    (t.foldl (fun a y => if dtLt a y then y else a) acc) ∈ t := by
  intro t
  induction t with
  | nil => intro acc; exact Or.inl rfl
  | cons y t ih =>
    intro acc
    simp only [List.foldl_cons]
    split_ifs with hy
    · rcases ih y with h | h
      · exact Or.inr (by rw [h]; exact List.mem_cons_self _ _)
      · exact Or.inr (List.mem_cons_of_mem _ h)
    · rcases ih acc with h | h
      · exact Or.inl h
      · exact Or.inr (List.mem_cons_of_mem _ h)

/-- C4: on a non-empty dated-timestamp list the window starts at the
minimum timestamp, ends at the maximum, the duration is the rounded
difference in seconds over 3600 and the end never precedes the start;
with no dated timestamp the window is the Unknown dictionary with no
duration entry. -/
theorem c4_time_window : ∀ (msgs : List Message),
    (datedTimestamps msgs = [] →
      calculate_time_window msgs = ⟨"Unknown", "Unknown", none⟩) ∧
    (∀ (h : PyDateTime) (t : List PyDateTime), datedTimestamps msgs = h :: t →
      calculate_time_window msgs =
        ⟨fmtWindow (dtMin h t), fmtWindow (dtMax h t),
         some (round2 (((toSeconds (dtMax h t) - toSeconds (dtMin h t) : ℤ) : ℚ) / 3600))⟩ ∧
      dtMin h t ∈ h :: t ∧ dtMax h t ∈ h :: t ∧
      (∀ d ∈ h :: t, dtLt d (dtMin h t) = false ∧ dtLt (dtMax h t) d = false) ∧
      dtLt (dtMax h t) (dtMin h t) = false) := by
  intro msgs
  constructor
  · intro h0
    rw [calculate_time_window, h0]
  · intro h t ht
    have hminmem : dtMin h t ∈ h :: t := by
      rcases dtMin_mem t h with h1 | h1
      · rw [dtMin, h1]
        exact List.mem_cons_self _ _
      · exact List.mem_cons_of_mem _ (by rw [dtMin]; exact h1)
    have hmaxmem : dtMax h t ∈ h :: t := by
      rcases dtMax_mem t h with h1 | h1
      · rw [dtMax, h1]
        exact List.mem_cons_self _ _
      · exact List.mem_cons_of_mem _ (by rw [dtMax]; exact h1)
    have hbounds : ∀ d ∈ h :: t, dtLt d (dtMin h t) = false ∧ dtLt (dtMax h t) d = false := by
      intro d hd
      rcases List.mem_cons.mp hd with rfl | hd2
      · exact ⟨dtMin_le_init t d, dtMax_ge_init t d⟩
      · exact ⟨dtMin_le_mem t h d hd2, dtMax_ge_mem t h d hd2⟩
    refine ⟨?_, hminmem, hmaxmem, hbounds, (hbounds _ hminmem).2⟩
    rw [calculate_time_window, ht]

/-- Witness for C4: the empty message list and a one-message list. -/
theorem c4_time_window_witness :
    calculate_time_window [] = ⟨"Unknown", "Unknown", none⟩ ∧
    calculate_time_window [msgC1] =
      ⟨"2024-01-01 10:00:00", "2024-01-01 10:00:00", some (round2 0)⟩ := by
  constructor
  · exact (c4_time_window []).1 rfl
  · have h := ((c4_time_window [msgC1]).2 ⟨2024, 1, 1, 10, 0, 0⟩ [] (by decide)).1
    rw [h]
    have h2 : fmtWindow ⟨2024, 1, 1, 10, 0, 0⟩ = "2024-01-01 10:00:00" := by decide
    have h3 : ((toSeconds ⟨2024, 1, 1, 10, 0, 0⟩ - toSeconds ⟨2024, 1, 1, 10, 0, 0⟩ : ℤ) : ℚ)
        / 3600 = 0 := by
      rw [sub_self]
      norm_num
    simp [dtMin, dtMax, h2, h3]

end TgNews
